import Mathlib

/-!
Verification development for the Monte-Carlo posterior bookkeeping core
(`pyro/infer/abstract_infer.py`): the trace-posterior sample store with
chain-aware weighted resampling, the empirical marginal projection,
convergence diagnostics, and the posterior-predictive generator.

Machine floats of the source are modelled as integers (the claims under
study depend only on control flow, ordering and shape, never on float
rounding); the external categorical sampler and the probabilistic
execution engine are parametrised by explicit draw indices and replay
functions.
-/

/-- Modelled from the spec: tensors of the external tensor library
(`torch`), abstracted as a flat integer payload with an explicit shape;
the core needs only shape semantics and row selection. -/
structure Tensor where
  shape : List Nat
  data : List Int
deriving DecidableEq

/-- Modelled from the spec: one named site of an execution record, tagged
latent/sampled or observed and holding a value. -/
structure Node where
  name : String
  isObserved : Bool
  value : Tensor
deriving DecidableEq

/-- Modelled from the spec: the execution-record type (`pyro.poutine.Trace`,
outside the given source) — an ordered ledger of named sites. -/
structure Trace where
  nodes : List Node
deriving DecidableEq

/-- Names of observed sites of a record (`Trace.observation_nodes`). -/
def Trace.observation_nodes (t : Trace) : List String :=
  (t.nodes.filter (fun nd => nd.isObserved)).map (fun nd => nd.name)

/-- Names of latent (sampled, non-observed) sites (`Trace.stochastic_nodes`). -/
def Trace.stochastic_nodes (t : Trace) : List String :=
  (t.nodes.filter (fun nd => !nd.isObserved)).map (fun nd => nd.name)

/-- Remove the site with the given name (`Trace.remove_node`). -/
def Trace.remove_node (t : Trace) (n : String) : Trace :=
  ⟨t.nodes.filter (fun nd => nd.name != n)⟩

/-- Fetch a site's stored value (`tr.nodes[site]["value"]`). -/
def get_node_value (t : Trace) (s : String) : Option Tensor :=
  (t.nodes.find? (fun nd => nd.name == s)).map (fun nd => nd.value)

/-- The Python exception classes the embedded operations can surface. -/
inductive PyErr where
  | indexError
  | keyError
  | valueError
  | assertionError
  | runtimeError
  | typeError
  | zeroDivisionError
deriving DecidableEq

/-- State of a `TracePosterior` object: `num_chains`, the three parallel
collections rebuilt by `run`, and the categorical resampler's logits
(`None` until a successful `run`). -/
structure TracePosteriorState where
  num_chains : Nat
  log_weights : List Int
  exec_traces : List Trace
  idxs_by_chain : List (List Nat)
  categorical : Option (List Int)
deriving DecidableEq

/-- `TracePosterior._reset`. -/
def TracePosteriorState.reset (st : TracePosteriorState) : TracePosteriorState :=
  ⟨st.num_chains, [], [], List.replicate st.num_chains [], none⟩

/-- `TracePosterior.__init__(num_chains)`. -/
def init_state (nc : Nat) : TracePosteriorState :=
  TracePosteriorState.reset ⟨nc, [], [], [], none⟩

/-- Python list-index resolution for a list of length `n`: a non-negative
index must be `< n`; a negative index `c` addresses position `n + c`;
anything else raises `IndexError` (modelled as `none`). -/
def pyResolve (n : Nat) (c : Int) : Option Nat :=
  if 0 ≤ c ∧ c < (n : Int) then some c.toNat
  else if -(n : Int) ≤ c ∧ c < 0 then some ((n : Int) + c).toNat
  else none

/-- `ls[j].append(i)` on a list of lists (with `j` already resolved). -/
def appendIdx (ls : List (List Nat)) (j : Nat) (i : Nat) : List (List Nat) :=
  ls.set j (ls.getD j [] ++ [i])

/-- The ingestion loop of `TracePosterior.run`: for the `i`-th yielded
triple, append the trace and log-weight, then record position `i` in the
yielded chain's index list (Python indexing, so a bad chain id raises). -/
def runLoop : Nat → TracePosteriorState → List (Trace × Int × Int) →
    Except PyErr TracePosteriorState
  | _, st, [] => Except.ok st
  | i, st, (tr, w, c) :: rest =>
    match pyResolve st.idxs_by_chain.length c with
    | none => Except.error PyErr.indexError
    | some j =>
      runLoop (i + 1)
        ⟨st.num_chains, st.log_weights ++ [w], st.exec_traces ++ [tr],
         appendIdx st.idxs_by_chain j i, st.categorical⟩ rest

/-- `TracePosterior.run` over an already-normalized triple generator
(as e.g. `TracePredictive._traces` yields): reset, ingest every yielded
triple, then rebuild the categorical resampler from the log-weights. -/
def runTriples (st : TracePosteriorState) (items : List (Trace × Int × Int)) :
    Except PyErr TracePosteriorState :=
  match runLoop 0 st.reset items with
  | Except.error e => Except.error e
  | Except.ok st1 => Except.ok { st1 with categorical := some st1.log_weights }

/-- An item yielded by a subclass-supplied generation procedure: a bare
record, a `(record, weight)` pair, or a full triple. -/
inductive TraceGenItem where
  | bare (tr : Trace)
  | pair (tr : Trace) (w : Int)
  | triple (tr : Trace) (w : Int) (c : Int)
deriving DecidableEq

/-- `sampler_default_args`: normalize a yielded item to a full triple,
defaulting the weight to 1.0 and the chain id to 0. -/
def sampler_default_args : TraceGenItem → Trace × Int × Int
  | TraceGenItem.bare tr => (tr, 1, 0)
  | TraceGenItem.pair tr w => (tr, w, 0)
  | TraceGenItem.triple tr w c => (tr, w, c)

/-- `TracePosterior.run` driving a `sampler_default_args`-wrapped
generation procedure. -/
def run (st : TracePosteriorState) (items : List TraceGenItem) :
    Except PyErr TracePosteriorState :=
  runTriples st (items.map sampler_default_args)

/-- The pruning performed by `TracePosterior.__call__`: copy the trace,
then remove every node named in its observation-node list. -/
def pruneObs (t : Trace) : Trace :=
  t.observation_nodes.foldl Trace.remove_node t

/-- `TracePosterior.__call__`, with the categorical draw `g` made an
explicit argument: decompose `g` as chain `g % num_chains` and
within-chain position `g / num_chains`, look the true position up in
`idxs_by_chain`, and return the pruned copy of the stored trace. -/
def call (st : TracePosteriorState) (g : Nat) : Except PyErr Trace :=
  match st.categorical with
  | none => Except.error PyErr.typeError
  | some _ =>
    if st.num_chains = 0 then Except.error PyErr.zeroDivisionError
    else
      match st.idxs_by_chain.get? (g % st.num_chains) with
      | none => Except.error PyErr.indexError
      | some idxs =>
        match idxs.get? (g / st.num_chains) with
        | none => Except.error PyErr.indexError
        | some p =>
          match st.exec_traces.get? p with
          | none => Except.error PyErr.indexError
          | some tr => Except.ok (pruneObs tr)

/-- Modelled from the spec: `torch.stack(values, 0)` — fails on an empty
list or when shapes differ, otherwise stacks along a new leading axis. -/
def torch_stack : List Tensor → Except PyErr Tensor
  | [] => Except.error PyErr.runtimeError
  | t :: ts =>
    if ts.all (fun u => u.shape == t.shape) then
      Except.ok ⟨(t :: ts).length :: t.shape, ((t :: ts).map Tensor.data).flatten⟩
    else Except.error PyErr.runtimeError

/-- The site selector accepted by `EmpiricalMarginal`: a single site name
or an ordered list of site names. -/
inductive SiteSelector where
  | single (s : String)
  | multi (l : List String)

/-- Fetch the values of the listed sites from one record, in order
(`[tr.nodes[site]["value"] for site in sites]`); a missing site raises
`KeyError`. -/
def fetch_values (t : Trace) : List String → Except PyErr (List Tensor)
  | [] => Except.ok []
  | s :: rest =>
    match get_node_value t s with
    | none => Except.error PyErr.keyError
    | some v =>
      match fetch_values t rest with
      | Except.error e => Except.error e
      | Except.ok vs => Except.ok (v :: vs)

/-- The per-record value selection of `EmpiricalMarginal._populate_traces`:
a single name is fetched directly, a list of names is fetched and stacked
along a new leading axis. -/
def fetch_value (t : Trace) : SiteSelector → Except PyErr Tensor
  | SiteSelector.single s =>
    match get_node_value t s with
    | none => Except.error PyErr.keyError
    | some v => Except.ok v
  | SiteSelector.multi l =>
    match fetch_values t l with
    | Except.error e => Except.error e
    | Except.ok vs => torch_stack vs

/-- The accumulation loop of `EmpiricalMarginal._populate_traces` over
`zip(exec_traces, log_weights)`: collect `(value, log_weight)` pairs. -/
def populate_loop (sites : SiteSelector) : List (Trace × Int) →
    Except PyErr (List (Tensor × Int))
  | [] => Except.ok []
  | p :: rest =>
    match fetch_value p.1 sites with
    | Except.error e => Except.error e
    | Except.ok v =>
      match populate_loop sites rest with
      | Except.error e => Except.error e
      | Except.ok tail => Except.ok ((v, p.2) :: tail)

/-- `EmpiricalMarginal` over a store: the weighted empirical collection of
the selected sites' values, one entry per stored record. -/
def EmpiricalMarginal (st : TracePosteriorState) (sites : SiteSelector) :
    Except PyErr (List (Tensor × Int)) :=
  populate_loop sites (st.exec_traces.zip st.log_weights)

/-- Select rows of the marginal's sample list at the given positions
(`marginal[sample_idxs]`); an out-of-range position raises `IndexError`. -/
def chain_values (samples : List Tensor) : List Nat → Except PyErr (List Tensor)
  | [] => Except.ok []
  | i :: rest =>
    match samples.get? i with
    | none => Except.error PyErr.indexError
    | some v =>
      match chain_values samples rest with
      | Except.error e => Except.error e
      | Except.ok vs => Except.ok (v :: vs)

/-- Build one stacked row per chain from `idxs_by_chain`
(the `chain_samples` loop of `TracePosterior.diagnostics`). -/
def chain_rows (samples : List Tensor) : List (List Nat) →
    Except PyErr (List Tensor)
  | [] => Except.ok []
  | idxs :: rest =>
    match chain_values samples idxs with
    | Except.error e => Except.error e
    | Except.ok sel =>
      match torch_stack sel with
      | Except.error e => Except.error e
      | Except.ok row =>
        match chain_rows samples rest with
        | Except.error e => Except.error e
        | Except.ok others => Except.ok (row :: others)

/-- The per-site body of `TracePosterior.diagnostics`: build the single-site
marginal, reject non-uniform weights, then reconstruct the chain-major
sample array and apply the two diagnostics primitives. -/
def diagnostics_site (ess rhat : Tensor → Tensor) (st : TracePosteriorState)
    (site : String) : Except PyErr (Tensor × Tensor) :=
  match EmpiricalMarginal st (SiteSelector.single site) with
  | Except.error e => Except.error e
  | Except.ok marginal =>
    match (marginal.map Prod.snd).max?, (marginal.map Prod.snd).min? with
    | some mx, some mn =>
      if mx ≠ mn then Except.error PyErr.valueError
      else
        match chain_rows (marginal.map Prod.fst) st.idxs_by_chain with
        | Except.error e => Except.error e
        | Except.ok rows =>
          match torch_stack rows with
          | Except.error e => Except.error e
          | Except.ok cs => Except.ok (ess cs, rhat cs)
    | _, _ => Except.error PyErr.runtimeError

/-- The site loop of `TracePosterior.diagnostics`, keyed in order. -/
def diagnostics_loop (ess rhat : Tensor → Tensor) (st : TracePosteriorState) :
    List String → Except PyErr (List (String × Tensor × Tensor))
  | [] => Except.ok []
  | s :: rest =>
    match diagnostics_site ess rhat st s with
    | Except.error e => Except.error e
    | Except.ok d =>
      match diagnostics_loop ess rhat st rest with
      | Except.error e => Except.error e
      | Except.ok ds => Except.ok ((s, d.1, d.2) :: ds)

/-- `TracePosterior.diagnostics`, with the external statistics primitives
`effective_sample_size` and `split_gelman_rubin` passed as `ess`/`rhat`:
default the site list to the first trace's stochastic nodes (asserting
the store is non-empty first), return an empty mapping for a single
chain, otherwise run the per-site computation. -/
def diagnostics (ess rhat : Tensor → Tensor) (st : TracePosteriorState)
    (sitesOpt : Option (List String)) :
    Except PyErr (List (String × Tensor × Tensor)) :=
  match sitesOpt with
  | some sites =>
    if st.num_chains = 1 then Except.ok []
    else diagnostics_loop ess rhat st sites
  | none =>
    match st.exec_traces with
    | [] => Except.error PyErr.assertionError
    | t :: _ =>
      if st.num_chains = 1 then Except.ok []
      else diagnostics_loop ess rhat st t.stochastic_nodes

/-- State of a `TracePredictive` object: the upstream posterior store and
the requested sample count (the model itself is absorbed into the
abstract replay function of `predictive_traces`). -/
structure TracePredictiveState where
  posterior : TracePosteriorState
  num_samples : Nat

/-- The sampling loop of `TracePredictive._traces`: `num_samples` times,
draw from the (already run) upstream store with draw index `gs i`, replay
the model against the drawn trace, and yield the result with log-weight 0
and chain id 0. -/
def predictive_loop (post : TracePosteriorState) (replay : Nat → Trace → Trace)
    (gs : Nat → Nat) : Nat → Nat → Except PyErr (List (Trace × Int × Int))
  | _, 0 => Except.ok []
  | i, Nat.succ k =>
    match call post (gs i) with
    | Except.error e => Except.error e
    | Except.ok mt =>
      match predictive_loop post replay gs (i + 1) k with
      | Except.error e => Except.error e
      | Except.ok rest => Except.ok ((replay i mt, (0 : Int), (0 : Int)) :: rest)

/-- `TracePredictive._traces`: if the upstream store holds no traces it
is run first, then the predictive loop yields `num_samples` replayed
records. Only the external collaborators are parametrised — `upstreamGen`
stands for the triples the upstream `_traces(*args, **kwargs)` would
yield for the same arguments, `replay` for the external forward replay
`poutine.trace(poutine.replay(model, mt))` of iteration `i`, and `gs`
for the categorical draw indices consumed by `self.posterior()`. -/
def predictive_traces (tp : TracePredictiveState)
    (upstreamGen : List (Trace × Int × Int)) (replay : Nat → Trace → Trace)
    (gs : Nat → Nat) :
    Except PyErr (TracePosteriorState × List (Trace × Int × Int)) :=
  match (if tp.posterior.exec_traces.isEmpty
         then runTriples tp.posterior upstreamGen
         else Except.ok tp.posterior) with
  | Except.error e => Except.error e
  | Except.ok post =>
    match predictive_loop post replay gs 0 tp.num_samples with
    | Except.error e => Except.error e
    | Except.ok outs => Except.ok (post, outs)

/-- A position `p` appears in exactly one of the chain index lists. -/
def uniquePos (ls : List (List Nat)) (p : Nat) : Prop :=
  ∃ c, c < ls.length ∧ p ∈ ls.getD c [] ∧
    ∀ c', c' < ls.length → p ∈ ls.getD c' [] → c' = c

/-- Invariant of the ingestion loop after `i` items: the chain index
lists hold `i` positions in total, each list is strictly increasing and
bounded by `i`, and every position below `i` lies in exactly one list. -/
def chainsInv (i : Nat) (ls : List (List Nat)) : Prop :=
  (ls.map List.length).sum = i ∧
  (∀ l ∈ ls, List.Pairwise (· < ·) l ∧ ∀ x ∈ l, x < i) ∧
  (∀ p, p < i → uniquePos ls p)

/-- Concrete fixture: a scalar-shaped tensor holding 5. -/
def zTensor : Tensor := ⟨[], [5]⟩

/-- Concrete fixture: a scalar-shaped tensor holding 7. -/
def yTensor : Tensor := ⟨[], [7]⟩

/-- Concrete fixture: a record with one latent site `z` and one observed
site `y`. -/
def zyTrace : Trace := ⟨[⟨"z", false, zTensor⟩, ⟨"y", true, yTensor⟩]⟩

/-- Concrete fixture: a record with only the latent site `z`, value 7. -/
def zTrace : Trace := ⟨[⟨"z", false, yTensor⟩]⟩

/-- Concrete fixture: a ready two-chain store with one sample per chain. -/
def drawStore : TracePosteriorState :=
  ⟨2, [0, 0], [zyTrace, zTrace], [[0], [1]], some [0, 0]⟩

/-- Concrete fixture: a ready two-chain store whose two samples carry the
distinct log-weights 0 and -1. -/
def skewStore : TracePosteriorState :=
  ⟨2, [0, -1], [zyTrace, zTrace], [[0], [1]], some [0, -1]⟩

/-- Concrete fixture: a vector tensor of shape `[2]`. -/
def abTensor1 : Tensor := ⟨[2], [1, 2]⟩

/-- Concrete fixture: a second vector tensor of shape `[2]`. -/
def abTensor2 : Tensor := ⟨[2], [3, 4]⟩

/-- Concrete fixture: a record with two latent vector sites `a` and `b`
of identical shape. -/
def abTrace : Trace := ⟨[⟨"a", false, abTensor1⟩, ⟨"b", false, abTensor2⟩]⟩

/-- Concrete fixture: a ready single-chain store holding `abTrace`. -/
def abStore : TracePosteriorState := ⟨1, [0], [abTrace], [[0]], some [0]⟩

/-! ## Helper lemmas about the ingestion loop -/

lemma pyResolve_lt {n : Nat} {c : Int} {j : Nat} (h : pyResolve n c = some j) : j < n := by
  unfold pyResolve at h
  split at h <;> rename_i h1
  · injection h with h'
    omega
  · split at h <;> rename_i h2
    · injection h with h'
      omega
    · exact absurd h (by simp)

lemma pyResolve_eq_none_iff (n : Nat) (c : Int) :
    pyResolve n c = none ↔ c < -(n : Int) ∨ (n : Int) ≤ c := by
  unfold pyResolve
  split <;> rename_i h1
  · simp only [reduceCtorEq, false_iff]
    omega
  · split <;> rename_i h2
    · simp only [reduceCtorEq, false_iff]
      omega
    · simp only [true_iff]
      omega

lemma pyResolve_neg {n : Nat} {c : Int} (h1 : -(n : Int) ≤ c) (h2 : c < 0) :
    pyResolve n c = some ((n : Int) + c).toNat := by
  unfold pyResolve
  rw [if_neg (by omega), if_pos (by omega)]

lemma appendIdx_length (ls : List (List Nat)) (j i : Nat) :
    (appendIdx ls j i).length = ls.length := by
  simp [appendIdx]

lemma runLoop_ok_shape :
    ∀ (items : List (Trace × Int × Int)) (i : Nat) (st st' : TracePosteriorState),
    runLoop i st items = Except.ok st' →
    st'.exec_traces = st.exec_traces ++ items.map (fun x => x.1) ∧
    st'.log_weights = st.log_weights ++ items.map (fun x => x.2.1) ∧
    st'.num_chains = st.num_chains ∧
    st'.idxs_by_chain.length = st.idxs_by_chain.length ∧
    st'.categorical = st.categorical := by
  intro items
  induction items with
  | nil =>
    intro i st st' h
    injection h with h'
    subst h'
    simp
  | cons x rest ih =>
    intro i st st' h
    obtain ⟨tr, w, c⟩ := x
    unfold runLoop at h
    cases hpr : pyResolve st.idxs_by_chain.length c with
    | none =>
      rw [hpr] at h
      exact absurd h (by simp)
    | some j =>
      rw [hpr] at h
      obtain ⟨he, hl, hn, hi, hc⟩ := ih (i + 1) _ st' h
      refine ⟨?_, ?_, hn, ?_, hc⟩
      · simpa [List.append_assoc] using he
      · simpa [List.append_assoc] using hl
      · simpa [appendIdx_length] using hi

lemma runTriples_ok_shape {st st' : TracePosteriorState} {items : List (Trace × Int × Int)}
    (h : runTriples st items = Except.ok st') :
    st'.exec_traces = items.map (fun x => x.1) ∧
    st'.log_weights = items.map (fun x => x.2.1) ∧
    st'.num_chains = st.num_chains ∧
    st'.idxs_by_chain.length = st.num_chains ∧
    st'.categorical = some (items.map (fun x => x.2.1)) := by
  unfold runTriples at h
  cases hr : runLoop 0 st.reset items with
  | error e =>
    rw [hr] at h
    exact absurd h (by simp)
  | ok st1 =>
    rw [hr] at h
    injection h with h'
    obtain ⟨he, hl, hn, hi, _⟩ := runLoop_ok_shape items 0 st.reset st1 hr
    subst h'
    simp only [TracePosteriorState.reset, List.nil_append] at he hl hn hi
    refine ⟨he, hl, hn, ?_, by rw [hl]⟩
    simpa [List.length_replicate] using hi

/-- C3: `run` normalizes every yielded item to a full triple — a bare
record gets weight 1.0 and chain id 0, a pair gets chain id 0, a triple
is used as-is — and a successful run stores exactly the normalized
records and weights, in order. -/
theorem C3_run_normalizes_items :
    (∀ tr, sampler_default_args (TraceGenItem.bare tr) = (tr, (1 : Int), (0 : Int))) ∧
    (∀ tr w, sampler_default_args (TraceGenItem.pair tr w) = (tr, w, (0 : Int))) ∧
    (∀ tr w c, sampler_default_args (TraceGenItem.triple tr w c) = (tr, w, c)) ∧
    (∀ st items st', run st items = Except.ok st' →
      st'.exec_traces = items.map (fun it => (sampler_default_args it).1) ∧
      st'.log_weights = items.map (fun it => (sampler_default_args it).2.1)) := by
  refine ⟨fun tr => rfl, fun tr w => rfl, fun tr w c => rfl, ?_⟩
  intro st items st' h
  obtain ⟨he, hl, _, _, _⟩ := runTriples_ok_shape h
  exact ⟨by simpa [List.map_map] using he, by simpa [List.map_map] using hl⟩

/-- Closed witness for C3: a run over a bare record stores it with the
default weight 1.0. -/
theorem C3_run_normalizes_items_witness :
    ∃ st', run (init_state 1) [TraceGenItem.bare zyTrace] = Except.ok st' ∧
      st'.exec_traces = [zyTrace] ∧ st'.log_weights = [1] := by
  refine ⟨⟨1, [1], [zyTrace], [[0]], some [1]⟩, rfl, ?_⟩
  have h := C3_run_normalizes_items.2.2.2 (init_state 1) [TraceGenItem.bare zyTrace]
    ⟨1, [1], [zyTrace], [[0]], some [1]⟩ rfl
  exact ⟨h.1, h.2⟩

lemma runLoop_ok_iff :
    ∀ (items : List (Trace × Int × Int)) (i : Nat) (st : TracePosteriorState),
    (∃ st', runLoop i st items = Except.ok st') ↔
    ∀ x ∈ items, -(st.idxs_by_chain.length : Int) ≤ x.2.2 ∧
      x.2.2 < (st.idxs_by_chain.length : Int) := by
  intro items
  induction items with
  | nil =>
    intro i st
    simp [runLoop]
  | cons x rest ih =>
    intro i st
    obtain ⟨tr, w, c⟩ := x
    constructor
    · rintro ⟨st', h⟩
      unfold runLoop at h
      cases hpr : pyResolve st.idxs_by_chain.length c with
      | none =>
        rw [hpr] at h
        exact absurd h (by simp)
      | some j =>
        rw [hpr] at h
        intro y hy
        rcases List.mem_cons.mp hy with hy | hy
        · subst hy
          have hno : ¬ (c < -(st.idxs_by_chain.length : Int) ∨
              (st.idxs_by_chain.length : Int) ≤ c) := by
            intro hc
            rw [(pyResolve_eq_none_iff _ _).mpr hc] at hpr
            exact absurd hpr (by simp)
          dsimp only
          constructor <;> omega
        · have hrest := (ih (i + 1)
            ⟨st.num_chains, st.log_weights ++ [w], st.exec_traces ++ [tr],
             appendIdx st.idxs_by_chain j i, st.categorical⟩).mp ⟨st', h⟩
          have := hrest y hy
          simpa [appendIdx_length] using this
    · intro hall
      have hc := hall (tr, w, c) (List.mem_cons_self _ _)
      dsimp only at hc
      unfold runLoop
      cases hpr : pyResolve st.idxs_by_chain.length c with
      | none =>
        rw [pyResolve_eq_none_iff] at hpr
        exact absurd hpr (by push_neg; omega)
      | some j =>
        have hrest := (ih (i + 1)
          ⟨st.num_chains, st.log_weights ++ [w], st.exec_traces ++ [tr],
           appendIdx st.idxs_by_chain j i, st.categorical⟩).mpr
          (by
            intro y hy
            have := hall y (List.mem_cons_of_mem _ hy)
            simpa [appendIdx_length] using this)
        obtain ⟨st', hst'⟩ := hrest
        exact ⟨st', hst'⟩

lemma getD_set_self (ls : List (List Nat)) (j : Nat) (x : List Nat) (h : j < ls.length) :
    (ls.set j x).getD j [] = x := by
  rw [List.getD_eq_getD_get?, List.get?_eq_getElem?, List.getElem?_set_eq_of_lt x h]
  rfl

lemma getD_set_ne (ls : List (List Nat)) (j c : Nat) (x : List Nat) (h : j ≠ c) :
    (ls.set j x).getD c [] = ls.getD c [] := by
  rw [List.getD_eq_getD_get?, List.getD_eq_getD_get?, List.get?_eq_getElem?,
    List.get?_eq_getElem?, List.getElem?_set_ne h]

lemma getD_mem (ls : List (List Nat)) (c : Nat) (h : c < ls.length) :
    ls.getD c [] ∈ ls := by
  rw [List.getD_eq_getElem _ _ h]
  exact List.getElem_mem h

lemma getD_replicate_nil (nc j : Nat) :
    (List.replicate nc ([] : List Nat)).getD j [] = [] := by
  rcases Nat.lt_or_ge j nc with h | h
  · rw [List.getD_eq_getElem _ _ (by simpa using h)]
    exact List.getElem_replicate ..
  · exact List.getD_eq_default _ _ (by simpa using h)

/-- C4 counterexample: on a two-chain store, an item yielded with the
negative chain id -1 — which lies outside `[0, num_chains)` — does NOT
make `run` fail: Python negative indexing silently appends its position
to the last chain's index list, and the item is stored. -/
theorem C4_counterexample_negative_chain_id :
    runTriples (init_state 2) [(zyTrace, 0, -1)] =
      Except.ok ⟨2, [0], [zyTrace], [[], [0]], some [0]⟩ ∧
    ∀ e, runTriples (init_state 2) [(zyTrace, 0, -1)] ≠ Except.error e := by
  refine ⟨rfl, ?_⟩
  intro e h
  exact Except.noConfusion
    ((rfl : runTriples (init_state 2) [(zyTrace, 0, -1)] =
      Except.ok ⟨2, [0], [zyTrace], [[], [0]], some [0]⟩).symm.trans h)

/-- C4 amended: `run` fails at ingestion exactly when some yielded chain
id lies outside `[-num_chains, num_chains)`; a negative chain id `c` with
`-num_chains ≤ c < 0` is accepted and its item is stored into chain
`num_chains + c` (Python negative list indexing). -/
theorem C4_amended_chain_id_range (st : TracePosteriorState)
    (items : List (Trace × Int × Int)) :
    ((∃ st', runTriples st items = Except.ok st') ↔
      ∀ x ∈ items, -(st.num_chains : Int) ≤ x.2.2 ∧ x.2.2 < (st.num_chains : Int)) ∧
    (∀ tr w c, -(st.num_chains : Int) ≤ c → c < 0 →
      ∃ st', runTriples st [(tr, w, c)] = Except.ok st' ∧
        st'.idxs_by_chain.getD ((st.num_chains : Int) + c).toNat [] = [0]) := by
  constructor
  · have hlen : st.reset.idxs_by_chain.length = st.num_chains := by
      simp [TracePosteriorState.reset]
    constructor
    · rintro ⟨st', h⟩
      unfold runTriples at h
      cases hr : runLoop 0 st.reset items with
      | error e =>
        rw [hr] at h
        exact absurd h (by simp)
      | ok st1 =>
        have := (runLoop_ok_iff items 0 st.reset).mp ⟨st1, hr⟩
        rw [hlen] at this
        exact this
    · intro hall
      obtain ⟨st1, h1⟩ := (runLoop_ok_iff items 0 st.reset).mpr (by rw [hlen]; exact hall)
      refine ⟨{ st1 with categorical := some st1.log_weights }, ?_⟩
      unfold runTriples
      rw [h1]
  · intro tr w c hle hlt
    have hnc : 0 < st.num_chains := by omega
    have hj : ((st.num_chains : Int) + c).toNat < st.num_chains := by omega
    have hrun : runTriples st [(tr, w, c)] =
        Except.ok ⟨st.num_chains, [w], [tr],
          appendIdx (List.replicate st.num_chains []) ((st.num_chains : Int) + c).toNat 0,
          some [w]⟩ := by
      unfold runTriples runLoop
      rw [show st.reset.idxs_by_chain.length = st.num_chains by
            simp [TracePosteriorState.reset],
          pyResolve_neg hle hlt]
      rfl
    refine ⟨_, hrun, ?_⟩
    unfold appendIdx
    rw [getD_set_self _ _ _ (by simpa using hj)]
    rw [getD_replicate_nil]
    rfl

/-- Closed witness for the amended C4: chain id -1 on a two-chain store is
accepted and stored into chain 1. -/
theorem C4_amended_chain_id_range_witness :
    ∃ st', runTriples (init_state 2) [(zyTrace, 0, -1)] = Except.ok st' ∧
      st'.idxs_by_chain.getD (((init_state 2).num_chains : Int) + -1).toNat [] = [0] :=
  (C4_amended_chain_id_range (init_state 2) [(zyTrace, 0, -1)]).2 zyTrace 0 (-1)
    (by decide) (by decide)

/-- C6 counterexample: on a single-chain store holding zero samples, a
`diagnostics()` call with the sites argument omitted does not return an
empty mapping — the non-empty-store assertion fires first and the call
raises `AssertionError`. -/
theorem C6_counterexample_empty_store_default_sites :
    diagnostics (fun t => t) (fun t => t) (init_state 1) none =
      Except.error PyErr.assertionError := rfl

/-- C6 amended: on a store with `num_chains == 1`, `diagnostics` returns
the empty mapping whenever a site list is passed, or when the sites
argument is omitted and the store is non-empty; with the sites argument
omitted on an empty store it instead fails the non-empty assertion. -/
theorem C6_amended_single_chain_diagnostics (ess rhat : Tensor → Tensor)
    (st : TracePosteriorState) (h1 : st.num_chains = 1) :
    (∀ sites, diagnostics ess rhat st (some sites) = Except.ok []) ∧
    (st.exec_traces ≠ [] → diagnostics ess rhat st none = Except.ok []) ∧
    (st.exec_traces = [] → diagnostics ess rhat st none =
      Except.error PyErr.assertionError) := by
  refine ⟨fun sites => ?_, fun hne => ?_, fun he => ?_⟩
  · unfold diagnostics
    dsimp only
    rw [if_pos h1]
  · unfold diagnostics
    cases hst : st.exec_traces with
    | nil => exact absurd hst hne
    | cons t rest =>
      dsimp only
      rw [if_pos h1]
  · unfold diagnostics
    rw [he]

/-- Closed witness for the amended C6: a single-chain store with one
sample returns an empty mapping both with and without a site list. -/
theorem C6_amended_single_chain_diagnostics_witness :
    diagnostics (fun t => t) (fun t => t) abStore (some ["a"]) = Except.ok [] ∧
    diagnostics (fun t => t) (fun t => t) abStore none = Except.ok [] := by
  have h := C6_amended_single_chain_diagnostics (fun t => t) (fun t => t) abStore rfl
  exact ⟨h.1 ["a"], h.2.1 (by decide)⟩

/-- C1: on a ready store, a draw with global categorical index `g`
decomposes it as chain `g % num_chains` and within-chain position
`g / num_chains`, maps through `idxs_by_chain[chain][within]` to the true
stored position, and returns (the pruned copy of) the record stored
there. -/
theorem C1_draw_index_decomposition (st : TracePosteriorState) (g : Nat)
    (idxs : List Nat) (p : Nat) (tr : Trace)
    (hready : st.categorical.isSome)
    (hnc : 0 < st.num_chains)
    (hchain : st.idxs_by_chain.get? (g % st.num_chains) = some idxs)
    (hwithin : idxs.get? (g / st.num_chains) = some p)
    (htr : st.exec_traces.get? p = some tr) :
    call st g = Except.ok (pruneObs tr) := by
  unfold call
  cases hc : st.categorical with
  | none =>
    rw [hc] at hready
    exact absurd hready (by simp)
  | some lg =>
    dsimp only
    rw [if_neg (by omega), hchain]
    dsimp only
    rw [hwithin]
    dsimp only
    rw [htr]

/-- Closed witness for C1: on a concrete two-chain store, the draw index 1
selects chain 1, within-chain position 0, true position 1. -/
theorem C1_draw_index_decomposition_witness :
    call drawStore 1 = Except.ok (pruneObs zTrace) :=
  C1_draw_index_decomposition drawStore 1 [1] 1 zTrace rfl (by decide) rfl rfl rfl

lemma foldl_remove_node (ns : List String) (t : Trace) :
    (ns.foldl Trace.remove_node t).nodes =
      t.nodes.filter (fun nd => !(ns.contains nd.name)) := by
  induction ns generalizing t with
  | nil => simp
  | cons n rest ih =>
    rw [List.foldl_cons, ih]
    show (t.nodes.filter (fun nd => nd.name != n)).filter _ = _
    rw [List.filter_filter]
    apply List.filter_congr
    intro nd _
    by_cases h1 : nd.name = n <;> by_cases h2 : nd.name ∈ rest <;>
      simp [List.contains_cons, h1, h2, bne]

lemma pruneObs_nodes {t : Trace} (hnodup : (t.nodes.map Node.name).Nodup) :
    (pruneObs t).nodes = t.nodes.filter (fun nd => !nd.isObserved) := by
  unfold pruneObs
  rw [foldl_remove_node]
  apply List.filter_congr
  intro nd hmem
  congr 1
  cases hobs : nd.isObserved with
  | true =>
    have hin : nd.name ∈ t.observation_nodes := by
      unfold Trace.observation_nodes
      exact List.mem_map_of_mem _ (List.mem_filter.mpr ⟨hmem, by simp [hobs]⟩)
    simpa [List.elem_iff] using hin
  | false =>
    have hout : nd.name ∉ t.observation_nodes := by
      intro hin
      unfold Trace.observation_nodes at hin
      obtain ⟨nd', hnd', hname⟩ := List.mem_map.mp hin
      have hnd'mem := (List.mem_filter.mp hnd').1
      have hobs' := (List.mem_filter.mp hnd').2
      have heq : nd' = nd := List.inj_on_of_nodup_map hnodup hnd'mem hmem hname
      rw [heq] at hobs'
      rw [hobs] at hobs'
      exact absurd hobs' (by simp)
    refine Bool.eq_false_iff.mpr ?_
    intro hcontains
    exact hout (by simpa [List.elem_iff] using hcontains)

/-- C2: a draw returns a copy of the selected stored record from which
every observation-site node has been removed — the latent sites remain,
in order, and no node of the returned record bears an observation-site
name (the stored record itself is a pure value here and is untouched). -/
theorem C2_draw_prunes_observations (st : TracePosteriorState) (g : Nat)
    (idxs : List Nat) (p : Nat) (tr : Trace) (r : Trace)
    (hchain : st.idxs_by_chain.get? (g % st.num_chains) = some idxs)
    (hwithin : idxs.get? (g / st.num_chains) = some p)
    (htr : st.exec_traces.get? p = some tr)
    (hnodup : (tr.nodes.map Node.name).Nodup)
    (hcall : call st g = Except.ok r) :
    r.nodes = tr.nodes.filter (fun nd => !nd.isObserved) ∧
    (∀ n ∈ tr.observation_nodes, ∀ nd ∈ r.nodes, nd.name ≠ n) := by
  have hr : r = pruneObs tr := by
    unfold call at hcall
    cases hc : st.categorical with
    | none =>
      rw [hc] at hcall
      exact absurd hcall (by simp)
    | some lg =>
      rw [hc] at hcall
      dsimp only at hcall
      by_cases h0 : st.num_chains = 0
      · rw [if_pos h0] at hcall
        exact absurd hcall (by simp)
      · rw [if_neg h0, hchain] at hcall
        dsimp only at hcall
        rw [hwithin] at hcall
        dsimp only at hcall
        rw [htr] at hcall
        injection hcall with h
        exact h.symm
  subst hr
  have hnodes := pruneObs_nodes hnodup
  refine ⟨hnodes, ?_⟩
  intro n hn nd hnd heq
  rw [hnodes] at hnd
  have hmem := (List.mem_filter.mp hnd).1
  have hlat := (List.mem_filter.mp hnd).2
  unfold Trace.observation_nodes at hn
  obtain ⟨nd', hnd', hname⟩ := List.mem_map.mp hn
  have hnd'mem := (List.mem_filter.mp hnd').1
  have hobs' := (List.mem_filter.mp hnd').2
  have heq' : nd' = nd :=
    List.inj_on_of_nodup_map hnodup hnd'mem hmem (by rw [hname, heq])
  rw [heq'] at hobs'
  simp at hlat
  rw [hlat] at hobs'
  exact absurd hobs' (by simp)

/-- Closed witness for C2: drawing the record holding latent `z` and
observed `y` keeps `z` and drops `y`. -/
theorem C2_draw_prunes_observations_witness :
    (pruneObs zyTrace).nodes = zyTrace.nodes.filter (fun nd => !nd.isObserved) ∧
    (∀ n ∈ zyTrace.observation_nodes, ∀ nd ∈ (pruneObs zyTrace).nodes, nd.name ≠ n) :=
  C2_draw_prunes_observations drawStore 0 [0] 0 zyTrace (pruneObs zyTrace)
    rfl rfl rfl (by decide) rfl

lemma populate_loop_single_ok (s : String) :
    ∀ lst : List (Trace × Int), (∀ p ∈ lst, (get_node_value p.1 s).isSome) →
    ∃ pairs, populate_loop (SiteSelector.single s) lst = Except.ok pairs ∧
      pairs.map Prod.snd = lst.map Prod.snd ∧
      ∀ k pr, lst.get? k = some pr →
        ∃ v, get_node_value pr.1 s = some v ∧ pairs.get? k = some (v, pr.2) := by
  intro lst
  induction lst with
  | nil =>
    intro _
    exact ⟨[], rfl, rfl, fun k pr h => absurd h (by simp)⟩
  | cons p rest ih =>
    intro hpres
    have hp := hpres p (List.mem_cons_self _ _)
    cases hv : get_node_value p.1 s with
    | none =>
      rw [hv] at hp
      exact absurd hp (by simp)
    | some v =>
      obtain ⟨pairs, hok, hsnd, hptw⟩ := ih (fun q hq => hpres q (List.mem_cons_of_mem _ hq))
      refine ⟨(v, p.2) :: pairs, ?_, by simp [hsnd], ?_⟩
      · unfold populate_loop fetch_value
        dsimp only
        rw [hv, hok]
      · intro k pr hk
        cases k with
        | zero =>
          injection hk with hk'
          subst hk'
          exact ⟨v, hv, rfl⟩
        | succ k' => exact hptw k' pr hk

/-- C5: with more than one chain, when the weights of a requested site's
marginal are non-uniform (maximum differs from minimum), `diagnostics`
raises the non-uniform-weights `ValueError` instead of returning a
result. -/
theorem C5_diagnostics_nonuniform_weights_error (ess rhat : Tensor → Tensor)
    (st : TracePosteriorState) (s : String) (rest : List String) (mx mn : Int)
    (hnc : 1 < st.num_chains)
    (hpres : ∀ tr ∈ st.exec_traces, (get_node_value tr s).isSome)
    (hmax : (((st.exec_traces.zip st.log_weights).map Prod.snd).max?) = some mx)
    (hmin : (((st.exec_traces.zip st.log_weights).map Prod.snd).min?) = some mn)
    (hne : mx ≠ mn) :
    diagnostics ess rhat st (some (s :: rest)) = Except.error PyErr.valueError := by
  have hsite : diagnostics_site ess rhat st s = Except.error PyErr.valueError := by
    obtain ⟨pairs, hok, hsnd, _⟩ :=
      populate_loop_single_ok s (st.exec_traces.zip st.log_weights)
        (by
          intro p hp
          obtain ⟨tr, w⟩ := p
          exact hpres tr (List.of_mem_zip hp).1)
    unfold diagnostics_site EmpiricalMarginal
    rw [hok]
    dsimp only
    rw [hsnd, hmax, hmin]
    dsimp only
    rw [if_pos hne]
  unfold diagnostics
  dsimp only
  rw [if_neg (by omega)]
  unfold diagnostics_loop
  rw [hsite]

/-- Closed witness for C5: a two-chain store with log-weights 0 and -1
makes `diagnostics` on site `z` raise the `ValueError`. -/
theorem C5_diagnostics_nonuniform_weights_error_witness :
    diagnostics (fun t => t) (fun t => t) skewStore (some ["z"]) =
      Except.error PyErr.valueError :=
  C5_diagnostics_nonuniform_weights_error (fun t => t) (fun t => t) skewStore "z" []
    0 (-1) (by decide) (by decide) (by rfl) (by rfl) (by decide)

lemma mem_get?_exists {α : Type} {a : α} {l : List α} (h : a ∈ l) :
    ∃ n, l.get? n = some a := by
  obtain ⟨n, hn⟩ := List.get_of_mem h
  exact ⟨n, by simp [← hn, List.get?_eq_get]⟩

lemma fetch_values_ok {t : Trace} :
    ∀ l : List String, (∀ s ∈ l, (get_node_value t s).isSome) →
    ∃ vs, fetch_values t l = Except.ok vs ∧ vs.length = l.length ∧
      ∀ k s', l.get? k = some s' →
        ∃ v, get_node_value t s' = some v ∧ vs.get? k = some v := by
  intro l
  induction l with
  | nil =>
    intro _
    exact ⟨[], rfl, rfl, fun k s' h => absurd h (by simp)⟩
  | cons s rest ih =>
    intro hpres
    have hs := hpres s (List.mem_cons_self _ _)
    cases hv : get_node_value t s with
    | none =>
      rw [hv] at hs
      exact absurd hs (by simp)
    | some v =>
      obtain ⟨vs, hok, hlen, hptw⟩ := ih (fun q hq => hpres q (List.mem_cons_of_mem _ hq))
      refine ⟨v :: vs, ?_, by simp [hlen], ?_⟩
      · unfold fetch_values
        rw [hv, hok]
      · intro k s' hk
        cases k with
        | zero =>
          injection hk with hk'
          subst hk'
          exact ⟨v, hv, rfl⟩
        | succ k' => exact hptw k' s' hk

lemma fetch_values_sh {t : Trace} {S : List Nat} :
    ∀ l : List String, (∀ s ∈ l, ∃ v, get_node_value t s = some v ∧ v.shape = S) →
    ∃ vs, fetch_values t l = Except.ok vs ∧ vs.length = l.length ∧
      ∀ v ∈ vs, v.shape = S := by
  intro l
  induction l with
  | nil =>
    intro _
    exact ⟨[], rfl, rfl, by simp⟩
  | cons s rest ih =>
    intro hsh
    obtain ⟨v, hv, hvS⟩ := hsh s (List.mem_cons_self _ _)
    obtain ⟨vs, hok, hlen, hall⟩ := ih (fun q hq => hsh q (List.mem_cons_of_mem _ hq))
    refine ⟨v :: vs, ?_, by simp [hlen], ?_⟩
    · unfold fetch_values
      rw [hv, hok]
    · intro u hu
      rcases List.mem_cons.mp hu with hu | hu
      · rw [hu]; exact hvS
      · exact hall u hu

lemma torch_stack_uniform {S : List Nat} (vs : List Tensor) (hne : vs ≠ [])
    (hS : ∀ v ∈ vs, v.shape = S) :
    ∃ d, torch_stack vs = Except.ok ⟨vs.length :: S, d⟩ := by
  cases vs with
  | nil => exact absurd rfl hne
  | cons v ts =>
    have hall : ts.all (fun u => u.shape == v.shape) = true := by
      simp only [List.all_eq_true]
      intro u hu
      rw [hS u (List.mem_cons_of_mem _ hu), hS v (List.mem_cons_self _ _)]
      simp
    refine ⟨((v :: ts).map Tensor.data).flatten, ?_⟩
    unfold torch_stack
    dsimp only
    rw [if_pos hall, hS v (List.mem_cons_self _ _)]

lemma torch_stack_error_shape {vs : List Tensor} {e : PyErr}
    (h : torch_stack vs = Except.error e) : e = PyErr.runtimeError := by
  cases vs with
  | nil =>
    injection h with h'
    exact h'.symm
  | cons v ts =>
    unfold torch_stack at h
    dsimp only at h
    by_cases hc : ts.all (fun u => u.shape == v.shape) = true
    · rw [if_pos hc] at h
      exact absurd h (by simp)
    · rw [if_neg hc] at h
      injection h with h'
      exact h'.symm

lemma torch_stack_mismatch {vs : List Tensor} {i j : Nat} {u v : Tensor}
    (hu : vs.get? i = some u) (hv : vs.get? j = some v) (hne : u.shape ≠ v.shape) :
    torch_stack vs = Except.error PyErr.runtimeError := by
  cases hstack : torch_stack vs with
  | error e => rw [torch_stack_error_shape hstack]
  | ok w =>
    exfalso
    cases vs with
    | nil => simp at hu
    | cons v0 ts =>
      unfold torch_stack at hstack
      dsimp only at hstack
      by_cases hc : ts.all (fun x => x.shape == v0.shape) = true
      · have hall : ∀ x ∈ v0 :: ts, x.shape = v0.shape := by
          intro x hx
          rcases List.mem_cons.mp hx with hx | hx
          · rw [hx]
          · simpa using List.all_eq_true.mp hc x hx
        exact hne (by rw [hall u (List.get?_mem hu), hall v (List.get?_mem hv)])
      · rw [if_neg hc] at hstack
        exact absurd hstack (by simp)

lemma fetch_value_multi_ok {t : Trace} {l : List String} {S : List Nat}
    (hl : l ≠ []) (hS : ∀ s ∈ l, ∃ v, get_node_value t s = some v ∧ v.shape = S) :
    ∃ d, fetch_value t (SiteSelector.multi l) = Except.ok ⟨l.length :: S, d⟩ := by
  obtain ⟨vs, hok, hlen, hall⟩ := fetch_values_sh l hS
  have hvsne : vs ≠ [] := by
    intro hnil
    rw [hnil] at hlen
    exact hl (List.length_eq_zero.mp hlen.symm)
  obtain ⟨d, hd⟩ := torch_stack_uniform vs hvsne hall
  refine ⟨d, ?_⟩
  unfold fetch_value
  dsimp only
  rw [hok]
  dsimp only
  rw [hd, hlen]

lemma fetch_value_multi_error {t : Trace} {l : List String} {e : PyErr}
    (hpres : ∀ s ∈ l, (get_node_value t s).isSome)
    (h : fetch_value t (SiteSelector.multi l) = Except.error e) :
    e = PyErr.runtimeError := by
  obtain ⟨vs, hok, _, _⟩ := fetch_values_ok l hpres
  unfold fetch_value at h
  dsimp only at h
  rw [hok] at h
  dsimp only at h
  exact torch_stack_error_shape h

lemma fetch_value_multi_mismatch {t : Trace} {l : List String} {s1 s2 : String}
    {v1 v2 : Tensor}
    (hpres : ∀ s ∈ l, (get_node_value t s).isSome)
    (hs1 : s1 ∈ l) (hs2 : s2 ∈ l)
    (hv1 : get_node_value t s1 = some v1) (hv2 : get_node_value t s2 = some v2)
    (hne : v1.shape ≠ v2.shape) :
    fetch_value t (SiteSelector.multi l) = Except.error PyErr.runtimeError := by
  obtain ⟨vs, hok, hlen, hptw⟩ := fetch_values_ok l hpres
  obtain ⟨i, hi⟩ := mem_get?_exists hs1
  obtain ⟨j, hj⟩ := mem_get?_exists hs2
  obtain ⟨u1, hu1, hvs1⟩ := hptw i s1 hi
  obtain ⟨u2, hu2, hvs2⟩ := hptw j s2 hj
  rw [hu1] at hv1
  rw [hu2] at hv2
  injection hv1 with hv1'
  injection hv2 with hv2'
  unfold fetch_value
  dsimp only
  rw [hok]
  dsimp only
  exact torch_stack_mismatch hvs1 hvs2 (by rw [hv1', hv2']; exact hne)

lemma populate_loop_multi_ok {l : List String} {S : List Nat} (hl : l ≠ []) :
    ∀ lst : List (Trace × Int),
    (∀ p ∈ lst, ∀ s ∈ l, ∃ v, get_node_value p.1 s = some v ∧ v.shape = S) →
    ∃ pairs, populate_loop (SiteSelector.multi l) lst = Except.ok pairs ∧
      ∀ pr ∈ pairs, pr.1.shape = l.length :: S := by
  intro lst
  induction lst with
  | nil =>
    intro _
    exact ⟨[], rfl, by simp⟩
  | cons p rest ih =>
    intro hpres
    obtain ⟨d, hd⟩ := fetch_value_multi_ok hl (hpres p (List.mem_cons_self _ _))
    obtain ⟨pairs, hok, hsh⟩ := ih (fun q hq => hpres q (List.mem_cons_of_mem _ hq))
    refine ⟨(⟨l.length :: S, d⟩, p.2) :: pairs, ?_, ?_⟩
    · unfold populate_loop
      rw [hd, hok]
    · intro pr hpr
      rcases List.mem_cons.mp hpr with hpr | hpr
      · rw [hpr]
      · exact hsh pr hpr

lemma populate_loop_multi_mismatch {l : List String} :
    ∀ lst : List (Trace × Int),
    (∀ p ∈ lst, ∀ s ∈ l, (get_node_value p.1 s).isSome) →
    (∃ p ∈ lst, ∃ s1 ∈ l, ∃ s2 ∈ l, ∃ v1 v2,
      get_node_value p.1 s1 = some v1 ∧ get_node_value p.1 s2 = some v2 ∧
      v1.shape ≠ v2.shape) →
    populate_loop (SiteSelector.multi l) lst = Except.error PyErr.runtimeError := by
  intro lst
  induction lst with
  | nil =>
    rintro _ ⟨p, hp, _⟩
    simp at hp
  | cons p rest ih =>
    rintro hpres ⟨q, hq, s1, hs1, s2, hs2, v1, v2, hv1, hv2, hne⟩
    rcases List.mem_cons.mp hq with hq | hq
    · subst hq
      have hmis := fetch_value_multi_mismatch
        (hpres q (List.mem_cons_self _ _)) hs1 hs2 hv1 hv2 hne
      unfold populate_loop
      rw [hmis]
    · cases hfv : fetch_value p.1 (SiteSelector.multi l) with
      | error e =>
        have he : e = PyErr.runtimeError :=
          fetch_value_multi_error (hpres p (List.mem_cons_self _ _)) hfv
        unfold populate_loop
        rw [hfv, he]
      | ok v =>
        have hrest := ih (fun q' hq' => hpres q' (List.mem_cons_of_mem _ hq'))
          ⟨q, hq, s1, hs1, s2, hs2, v1, v2, hv1, hv2, hne⟩
        unfold populate_loop
        rw [hfv, hrest]

/-- C7: over an ordered list of `k` site names whose values all share one
shape `S` in every stored record, the marginal's accumulated values each
have shape `[k] ++ S` (a new leading stacking axis); if two listed sites
carry differing value shapes in some record, the construction fails at
the stacking step; a single site name (a string) is fetched directly,
without stacking. -/
theorem C7_marginal_stacking (st : TracePosteriorState) :
    (∀ (l : List String) (S : List Nat), l ≠ [] →
      (∀ tr ∈ st.exec_traces, ∀ s ∈ l, ∃ v, get_node_value tr s = some v ∧ v.shape = S) →
      ∃ pairs, EmpiricalMarginal st (SiteSelector.multi l) = Except.ok pairs ∧
        ∀ pr ∈ pairs, pr.1.shape = l.length :: S) ∧
    (∀ l : List String, st.exec_traces.length = st.log_weights.length →
      (∀ tr ∈ st.exec_traces, ∀ s ∈ l, (get_node_value tr s).isSome) →
      (∃ tr ∈ st.exec_traces, ∃ s1 ∈ l, ∃ s2 ∈ l, ∃ v1 v2,
        get_node_value tr s1 = some v1 ∧ get_node_value tr s2 = some v2 ∧
        v1.shape ≠ v2.shape) →
      EmpiricalMarginal st (SiteSelector.multi l) = Except.error PyErr.runtimeError) ∧
    (∀ s : String, (∀ tr ∈ st.exec_traces, (get_node_value tr s).isSome) →
      ∃ pairs, EmpiricalMarginal st (SiteSelector.single s) = Except.ok pairs ∧
        ∀ k pr, (st.exec_traces.zip st.log_weights).get? k = some pr →
          ∃ v, get_node_value pr.1 s = some v ∧ pairs.get? k = some (v, pr.2)) := by
  refine ⟨?_, ?_, ?_⟩
  · intro l S hl hS
    obtain ⟨pairs, hok, hsh⟩ := populate_loop_multi_ok hl
      (st.exec_traces.zip st.log_weights)
      (fun p hp => hS p.1 (List.of_mem_zip hp).1)
    exact ⟨pairs, hok, hsh⟩
  · intro l hlen hpres hwit
    obtain ⟨tr, htr, s1, hs1, s2, hs2, v1, v2, hv1, hv2, hne⟩ := hwit
    obtain ⟨n, hn⟩ := mem_get?_exists htr
    have hnlt : n < st.exec_traces.length := by
      rcases List.get?_eq_some.mp hn with ⟨h, _⟩
      exact h
    cases hw : st.log_weights.get? n with
    | none =>
      rw [List.get?_eq_none] at hw
      omega
    | some w =>
      have hzip : (st.exec_traces.zip st.log_weights).get? n = some (tr, w) :=
        (List.get?_zip_eq_some _ _ _ _).mpr ⟨hn, hw⟩
      exact populate_loop_multi_mismatch (st.exec_traces.zip st.log_weights)
        (fun p hp => hpres p.1 (List.of_mem_zip hp).1)
        ⟨(tr, w), List.get?_mem hzip, s1, hs1, s2, hs2, v1, v2, hv1, hv2, hne⟩
  · intro s hpres
    obtain ⟨pairs, hok, _, hptw⟩ := populate_loop_single_ok s
      (st.exec_traces.zip st.log_weights)
      (fun p hp => hpres p.1 (List.of_mem_zip hp).1)
    exact ⟨pairs, hok, hptw⟩

/-- Closed witness for C7: stacking sites `a` and `b` (each of shape
`[2]`) over the concrete store yields values of shape `[2, 2]`. -/
theorem C7_marginal_stacking_witness :
    ∃ pairs, EmpiricalMarginal abStore (SiteSelector.multi ["a", "b"]) =
        Except.ok pairs ∧ ∀ pr ∈ pairs, pr.1.shape = [2, 2] :=
  (C7_marginal_stacking abStore).1 ["a", "b"] [2] (by decide)
    (by
      intro tr htr s hs
      have htr' : tr = abTrace := by simpa [abStore] using htr
      subst htr'
      rcases List.mem_cons.mp hs with h | h
      · subst h
        exact ⟨abTensor1, rfl, rfl⟩
      · have h' : s = "b" := by simpa using h
        subst h'
        exact ⟨abTensor2, rfl, rfl⟩)

lemma sum_map_length_appendIdx :
    ∀ (ls : List (List Nat)) (j i : Nat), j < ls.length →
    ((appendIdx ls j i).map List.length).sum = (ls.map List.length).sum + 1 := by
  intro ls
  induction ls with
  | nil =>
    intro j i h
    simp at h
  | cons a tl ih =>
    intro j i h
    cases j with
    | zero =>
      show (((a :: tl).set 0 ((a :: tl).getD 0 [] ++ [i])).map List.length).sum = _
      simp only [List.set]
      simp [List.getD_cons_zero]
      omega
    | succ j' =>
      show (((a :: tl).set (j' + 1) ((a :: tl).getD (j' + 1) [] ++ [i])).map List.length).sum = _
      have htl := ih j' i (by simpa using h)
      unfold appendIdx at htl
      simp only [List.set, List.getD_cons_succ, List.map_cons, List.sum_cons]
      omega

lemma chainsInv_zero (nc : Nat) : chainsInv 0 (List.replicate nc []) := by
  refine ⟨by simp, ?_, fun p hp => absurd hp (by omega)⟩
  intro l hl
  rw [List.eq_of_mem_replicate hl]
  exact ⟨List.Pairwise.nil, by simp⟩

lemma chainsInv_step {i : Nat} {ls : List (List Nat)} {j : Nat}
    (hinv : chainsInv i ls) (hj : j < ls.length) :
    chainsInv (i + 1) (appendIdx ls j i) := by
  obtain ⟨hsum, hpw, huniq⟩ := hinv
  refine ⟨?_, ?_, ?_⟩
  · rw [sum_map_length_appendIdx ls j i hj, hsum]
  · intro l hl
    unfold appendIdx at hl
    rcases List.mem_or_eq_of_mem_set hl with hl | hl
    · obtain ⟨hp, hb⟩ := hpw l hl
      exact ⟨hp, fun x hx => Nat.lt_succ_of_lt (hb x hx)⟩
    · subst hl
      obtain ⟨hp, hb⟩ := hpw (ls.getD j []) (getD_mem ls j hj)
      constructor
      · rw [List.pairwise_append]
        refine ⟨hp, List.pairwise_singleton _ _, ?_⟩
        intro a ha b hb'
        rw [List.mem_singleton.mp hb']
        exact hb a ha
      · intro x hx
        rcases List.mem_append.mp hx with hx | hx
        · exact Nat.lt_succ_of_lt (hb x hx)
        · rw [List.mem_singleton.mp hx]
          omega
  · intro p hp
    rcases Nat.lt_or_ge p i with hpi | hpi
    · obtain ⟨c, hc, hmem, hun⟩ := huniq p hpi
      refine ⟨c, by simpa [appendIdx_length] using hc, ?_, ?_⟩
      · by_cases hcj : c = j
        · subst hcj
          unfold appendIdx
          rw [getD_set_self _ _ _ hj]
          exact List.mem_append.mpr (Or.inl hmem)
        · unfold appendIdx
          rw [getD_set_ne _ _ _ _ (fun h => hcj h.symm)]
          exact hmem
      · intro c' hc' hmem'
        have hc'len : c' < ls.length := by simpa [appendIdx_length] using hc'
        by_cases hcj' : c' = j
        · subst hcj'
          unfold appendIdx at hmem'
          rw [getD_set_self _ _ _ hj] at hmem'
          rcases List.mem_append.mp hmem' with hm | hm
          · exact hun c' hc'len hm
          · rw [List.mem_singleton.mp hm] at hpi
            omega
        · unfold appendIdx at hmem'
          rw [getD_set_ne _ _ _ _ (fun h => hcj' h.symm)] at hmem'
          exact hun c' hc'len hmem'
    · have hpeq : p = i := by omega
      subst hpeq
      refine ⟨j, by simpa [appendIdx_length] using hj, ?_, ?_⟩
      · unfold appendIdx
        rw [getD_set_self _ _ _ hj]
        exact List.mem_append.mpr (Or.inr (List.mem_singleton.mpr rfl))
      · intro c' hc' hmem'
        have hc'len : c' < ls.length := by simpa [appendIdx_length] using hc'
        by_cases hcj' : c' = j
        · exact hcj'
        · unfold appendIdx at hmem'
          rw [getD_set_ne _ _ _ _ (fun h => hcj' h.symm)] at hmem'
          obtain ⟨_, hb⟩ := hpw (ls.getD c' []) (getD_mem ls c' hc'len)
          exact absurd (hb _ hmem') (by omega)

lemma runLoop_chainsInv :
    ∀ (items : List (Trace × Int × Int)) (i : Nat) (st st' : TracePosteriorState),
    runLoop i st items = Except.ok st' → chainsInv i st.idxs_by_chain →
    chainsInv (i + items.length) st'.idxs_by_chain := by
  intro items
  induction items with
  | nil =>
    intro i st st' h hinv
    injection h with h'
    subst h'
    simpa using hinv
  | cons x rest ih =>
    intro i st st' h hinv
    obtain ⟨tr, w, c⟩ := x
    unfold runLoop at h
    cases hpr : pyResolve st.idxs_by_chain.length c with
    | none =>
      rw [hpr] at h
      exact absurd h (by simp)
    | some j =>
      rw [hpr] at h
      have hstep := chainsInv_step hinv (pyResolve_lt hpr)
      have hrest := ih (i + 1) _ st' h hstep
      rw [List.length_cons, show i + (rest.length + 1) = i + 1 + rest.length by omega]
      exact hrest

/-- C8: after a successful run whose yielded chain ids all lie in
`[0, num_chains)`, the chain index lists partition the stored positions —
the lengths of the per-chain lists sum to the number of stored samples,
and every stored position appears in exactly one chain's index list. -/
theorem C8_chain_index_partition (st : TracePosteriorState)
    (items : List (Trace × Int × Int)) (st' : TracePosteriorState)
    (_hchain : ∀ x ∈ items, 0 ≤ x.2.2 ∧ x.2.2 < (st.num_chains : Int))
    (hrun : runTriples st items = Except.ok st') :
    ((st'.idxs_by_chain.map List.length).sum = st'.exec_traces.length) ∧
    (∀ p, p < st'.exec_traces.length → uniquePos st'.idxs_by_chain p) := by
  unfold runTriples at hrun
  cases hr : runLoop 0 st.reset items with
  | error e =>
    rw [hr] at hrun
    exact absurd hrun (by simp)
  | ok st1 =>
    rw [hr] at hrun
    injection hrun with h'
    subst h'
    obtain ⟨he, _, _, _, _⟩ := runLoop_ok_shape items 0 st.reset st1 hr
    have hinv := runLoop_chainsInv items 0 st.reset st1 hr
      (by
        show chainsInv 0 st.reset.idxs_by_chain
        simpa [TracePosteriorState.reset] using chainsInv_zero st.num_chains)
    have hlen : st1.exec_traces.length = items.length := by
      rw [he]
      simp [TracePosteriorState.reset]
    rw [Nat.zero_add] at hinv
    constructor
    · show (st1.idxs_by_chain.map List.length).sum = st1.exec_traces.length
      rw [hinv.1, hlen]
    · intro p hp
      have hp' : p < st1.exec_traces.length := hp
      rw [hlen] at hp'
      exact hinv.2.2 p hp'

/-- Closed witness for C8: a concrete two-chain run of two samples gives
index lists whose lengths sum to 2 and which partition positions 0, 1. -/
theorem C8_chain_index_partition_witness :
    ((([[0], [1]] : List (List Nat)).map List.length).sum =
      ([zyTrace, zTrace] : List Trace).length) ∧
    (∀ p, p < ([zyTrace, zTrace] : List Trace).length → uniquePos [[0], [1]] p) :=
  C8_chain_index_partition (init_state 2) [(zyTrace, 0, 0), (zTrace, 0, 1)]
    ⟨2, [0, 0], [zyTrace, zTrace], [[0], [1]], some [0, 0]⟩ (by decide) rfl

/-- C10: after every successful run, each chain's index list is strictly
increasing — positions are recorded in encounter order, so the per-chain
sequences reconstructed through `idxs_by_chain` preserve the order in
which each chain's samples were yielded. -/
theorem C10_chain_index_strictly_increasing (st : TracePosteriorState)
    (items : List (Trace × Int × Int)) (st' : TracePosteriorState)
    (hrun : runTriples st items = Except.ok st') :
    ∀ l ∈ st'.idxs_by_chain, List.Pairwise (· < ·) l := by
  unfold runTriples at hrun
  cases hr : runLoop 0 st.reset items with
  | error e =>
    rw [hr] at hrun
    exact absurd hrun (by simp)
  | ok st1 =>
    rw [hr] at hrun
    injection hrun with h'
    subst h'
    have hinv := runLoop_chainsInv items 0 st.reset st1 hr
      (by
        show chainsInv 0 st.reset.idxs_by_chain
        simpa [TracePosteriorState.reset] using chainsInv_zero st.num_chains)
    exact fun l hl => (hinv.2.1 l hl).1

/-- Closed witness for C10: a concrete run interleaving chains 0 and 1
leaves both index lists strictly increasing. -/
theorem C10_chain_index_strictly_increasing_witness :
    List.Pairwise (· < ·) ([0, 2] : List Nat) ∧
    List.Pairwise (· < ·) ([1] : List Nat) :=
  ⟨C10_chain_index_strictly_increasing (init_state 2)
      [(zyTrace, 0, 0), (zTrace, 0, 1), (zTrace, 0, 0)]
      ⟨2, [0, 0, 0], [zyTrace, zTrace, zTrace], [[0, 2], [1]], some [0, 0, 0]⟩ rfl
      [0, 2] (by decide),
   C10_chain_index_strictly_increasing (init_state 2)
      [(zyTrace, 0, 0), (zTrace, 0, 1), (zTrace, 0, 0)]
      ⟨2, [0, 0, 0], [zyTrace, zTrace, zTrace], [[0, 2], [1]], some [0, 0, 0]⟩ rfl
      [1] (by decide)⟩

lemma predictive_loop_ok (post : TracePosteriorState) (replay : Nat → Trace → Trace)
    (gs : Nat → Nat) :
    ∀ (k i : Nat), (∀ m, m < k → ∃ t, call post (gs (i + m)) = Except.ok t) →
    ∃ outs, predictive_loop post replay gs i k = Except.ok outs ∧
      outs.length = k ∧
      ∀ m t, m < k → call post (gs (i + m)) = Except.ok t →
        outs.get? m = some (replay (i + m) t, (0 : Int), (0 : Int)) := by
  intro k
  induction k with
  | zero =>
    intro i _
    exact ⟨[], rfl, rfl, fun m t hm => absurd hm (by omega)⟩
  | succ k' ih =>
    intro i hcall
    obtain ⟨t0, ht0⟩ := hcall 0 (by omega)
    rw [Nat.add_zero] at ht0
    obtain ⟨outs, hok, hlen, hptw⟩ := ih (i + 1)
      (fun m hm => by
        have := hcall (m + 1) (by omega)
        rw [show i + (m + 1) = i + 1 + m by omega] at this
        exact this)
    refine ⟨(replay i t0, 0, 0) :: outs, ?_, by simp [hlen], ?_⟩
    · unfold predictive_loop
      rw [ht0, hok]
    · intro m t hm hcm
      cases m with
      | zero =>
        rw [Nat.add_zero] at hcm
        rw [ht0] at hcm
        injection hcm with ht
        rw [← ht]
        simp
      | succ m' =>
        have := hptw m' t (by omega) (by rw [show i + 1 + m' = i + (m' + 1) by omega]; exact hcm)
        rw [show i + (m' + 1) = i + 1 + m' by omega]
        simpa using this

/-- C9: a posterior-predictive generator over a never-run upstream store
first runs that store exactly once (with the same generator arguments,
here the same `upstreamGen`), then yields exactly `num_samples` records,
the `m`-th being the model replayed against the `m`-th pruned upstream
draw, each with log-weight 0 and chain id 0. -/
theorem C9_predictive_traces (tp : TracePredictiveState)
    (upstreamGen : List (Trace × Int × Int)) (replay : Nat → Trace → Trace)
    (gs : Nat → Nat) (post : TracePosteriorState)
    (hfresh : tp.posterior.exec_traces = [])
    (hrun : runTriples tp.posterior upstreamGen = Except.ok post)
    (hdraw : ∀ m, m < tp.num_samples → ∃ t, call post (gs m) = Except.ok t) :
    ∃ outs, predictive_traces tp upstreamGen replay gs = Except.ok (post, outs) ∧
      outs.length = tp.num_samples ∧
      ∀ m t, m < tp.num_samples → call post (gs m) = Except.ok t →
        outs.get? m = some (replay m t, (0 : Int), (0 : Int)) := by
  obtain ⟨outs, hok, hlen, hptw⟩ := predictive_loop_ok post replay gs tp.num_samples 0
    (by
      intro m hm
      rw [Nat.zero_add]
      exact hdraw m hm)
  refine ⟨outs, ?_, hlen, ?_⟩
  · unfold predictive_traces
    rw [if_pos (by rw [hfresh]; rfl), hrun]
    dsimp only
    rw [hok]
  · intro m t hm hcm
    have := hptw m t hm (by rw [Nat.zero_add]; exact hcm)
    rw [Nat.zero_add] at this
    exact this

/-- Closed witness for C9: one predictive sample over a fresh single-chain
upstream store replays the pruned draw with weight 0 and chain id 0. -/
theorem C9_predictive_traces_witness :
    ∃ outs, predictive_traces ⟨init_state 1, 1⟩ [(zyTrace, 0, 0)] (fun _ t => t)
        (fun _ => 0) = Except.ok (⟨1, [0], [zyTrace], [[0]], some [0]⟩, outs) ∧
      outs.length = 1 ∧
      ∀ m t, m < 1 →
        call (⟨1, [0], [zyTrace], [[0]], some [0]⟩ : TracePosteriorState) ((fun _ => 0) m) =
          Except.ok t →
        outs.get? m = some ((fun (_ : Nat) (t : Trace) => t) m t, (0 : Int), (0 : Int)) :=
  C9_predictive_traces ⟨init_state 1, 1⟩ [(zyTrace, 0, 0)] (fun _ t => t) (fun _ => 0)
    ⟨1, [0], [zyTrace], [[0]], some [0]⟩ rfl rfl
    (fun m hm => ⟨pruneObs zyTrace, by
      have hm' : m < 1 := hm
      have hm0 : m = 0 := by omega
      subst hm0
      rfl⟩)
